import Mathlib

/-!
Verification of the fuzzy label-reconciliation core of the Teachers Day
campaign dashboard (src/app.py, lines 42-49).  The relevant Python code,
operating on the User Name column of the uploaded table, is

    unique_sbms = df[col].unique()
    standard_sbms = list(set(unique_sbms))[:75]

    def match_sbm(name):
        match, score = process.extractOne(name, standard_sbms)
        return match if score > 95 else name

    df[col] = df[col].apply(match_sbm)

We embed the column as a List String.  pandas unique keeps the first
occurrence of each value in order (unique below); list(set(...)) re-orders
the distinct values arbitrarily -- Python set iteration order is unspecified
and hash-randomised across processes -- which we model by quantifying over
permutations of unique observed; the slice [:75] is List.take 75.

process.extractOne is from the thefuzz library, with its default processor
(lowercase, replace non-alphanumeric characters by spaces, trim the ends:
full_process below) and its default scorer fuzz.WRatio, whose result is
rounded to an integer; on a list of choices it returns the first choice
attaining the maximal score paired with that score, or None on an empty
list, in which case the 2-tuple unpacking inside match_sbm raises a
TypeError at run time -- modelled here by Option, with none standing for
that failure.

fuzz_score below is the base component of WRatio: the normalised indel
similarity round(200 * lcs(p1, p2) / (len p1 + len p2)) of the two processed
strings, and 0 if either processed string is empty, exactly as WRatio
returns 0 on empty processed input.  In the regime the app uses this base
component is an exact model of the full WRatio: every other component of
WRatio (partial ratio and the token ratios) is scaled by a factor of at
most 0.95 and therefore never exceeds 95, while match_sbm accepts a match
only when the score is strictly above 95, so a candidate is accepted under
WRatio iff it is accepted under the base component, both agree on the first
candidate attaining the maximal score whenever a match is accepted, and
when no candidate is accepted the winning candidate is discarded and the
input is returned unchanged either way.
-/

/-- Character-level step of the thefuzz default string preprocessing:
alphanumeric characters are lowercased, every other character becomes a
space. -/
def procChar (c : Char) : Char :=
  if c.isAlphanum then c.toLower else ' '

/-- Drop spaces at both ends of a character list. -/
def trimSpaces (l : List Char) : List Char :=
  ((l.dropWhile (fun c => c == ' ')).reverse.dropWhile (fun c => c == ' ')).reverse

/-- The thefuzz default processor (utils.full_process): replace each
non-alphanumeric character by a space, lowercase, trim the ends. -/
def full_process (s : String) : String :=
  ⟨trimSpaces (s.data.map procChar)⟩

/-- Length of a longest common subsequence of two character lists, written
with explicit fuel so that the recursion is structural; the fuel used by
lcs below always suffices. -/
def lcsF : Nat → List Char → List Char → Nat
  | 0, _, _ => 0
  | _ + 1, [], _ => 0
  | _ + 1, _ :: _, [] => 0
  | f + 1, a :: as, b :: bs =>
      if a = b then lcsF f as bs + 1
      else max (lcsF f (a :: as) bs) (lcsF f as (b :: bs))

/-- Length of a longest common subsequence of two character lists. -/
def lcs (as bs : List Char) : Nat :=
  lcsF (as.length + bs.length) as bs

/-- Round n / d to the nearest integer, halves to even: the rounding Python
applies when thefuzz converts float scores to ints. -/
def roundNat (n d : Nat) : Nat :=
  if 2 * (n % d) < d then n / d
  else if d < 2 * (n % d) then n / d + 1
  else if (n / d) % 2 = 0 then n / d else n / d + 1

/-- Integer similarity score of two raw strings as computed by thefuzz for
this app: both strings are preprocessed with full_process; an empty
processed string scores 0; otherwise the normalised indel similarity
round(200 * lcs / (len1 + len2)).  As explained in the header, in the
strictly-above-95 regime used by match_sbm this coincides with the full
WRatio scorer. -/
def fuzz_score (a b : String) : Nat :=
  if (full_process a).data = [] ∨ (full_process b).data = [] then 0
  else roundNat (200 * lcs (full_process a).data (full_process b).data)
    ((full_process a).data.length + (full_process b).data.length)

/-- The thefuzz process.extractOne, restricted to what the app uses: given a
scorer it returns the first choice attaining the maximal score together with
that score, or none when the list of choices is empty. -/
def extractOne (scorer : String → String → Nat) (query : String) :
    List String → Option (String × Nat)
  | [] => none
  | c :: cs =>
      some (cs.foldl
        (fun best x => if best.2 < scorer query x then (x, scorer query x) else best)
        (c, scorer query c))

/-- The per-label resolver of the app (src/app.py lines 45-47).  The result
none models the run-time TypeError raised by unpacking the None that
extractOne returns on an empty candidate list. -/
def match_sbm (cands : List String) (name : String) : Option String :=
  match extractOne fuzz_score name cands with
  | none => none
  | some (m, score) => some (if 95 < score then m else name)

/-- pandas Series.unique: the distinct values of a column in order of first
occurrence. -/
def unique : List String → List String
  | [] => []
  | x :: xs => x :: (unique xs).filter (fun y => y != x)

/-- The candidate list of the app (src/app.py line 43): the first 75 entries
of list(set(unique_sbms)), taken from a given iteration order of the set of
distinct values. -/
def standard_sbms (setOrder : List String) : List String :=
  setOrder.take 75

/-- Mapping from each distinct observed label to its resolved value: the
build_resolution_map operation of the spec, realised with the resolver of
the app. -/
def build_resolution_map (cands : List String) (labels : List String) :
    List (String × Option String) :=
  labels.map (fun l => (l, match_sbm cands l))

/-- Per-row application of the resolver to the whole column
(src/app.py line 49). -/
def apply_column (cands : List String) (rows : List String) : List (Option String) :=
  rows.map (match_sbm cands)

/-- Line 49 of src/app.py seen at the level of the whole dataframe: a row is
its User Name entry paired with the tuple of all its other columns; the
assignment rewrites only the first component. -/
def update_user_names {β : Type} (cands : List String) (rows : List (String × β)) :
    List (Option String × β) :=
  rows.map (fun r => (match_sbm cands r.1, r.2))

/-- A column with 76 pairwise distinct labels, used to exercise the cap of
the candidate list. -/
def obs76 : List String :=
  (List.range 76).map Nat.repr

/-! Helper lemmas. -/

/-- Membership in the deduplicated column is membership in the column. -/
theorem mem_unique (a : String) : ∀ (l : List String), a ∈ unique l ↔ a ∈ l
  | [] => Iff.rfl
  | x :: xs => by
    simp only [unique, List.mem_cons, List.mem_filter, bne_iff_ne, mem_unique a xs]
    by_cases h : a = x
    · simp [h]
    · simp [h]

/-- Invariant of the fold inside extractOne: the accumulator always holds a
pair of a string and its score, the score never decreases, it dominates the
score of every element seen so far, and the held string is either still the
initial one or the first element of the traversed list realising a strict
improvement that no earlier element matches. -/
theorem foldl_best_spec (scorer : String → String → Nat) (q : String) :
    ∀ (xs : List String) (m0 : String) (s0 : Nat), scorer q m0 = s0 →
      ∃ m s,
        xs.foldl (fun best x => if best.2 < scorer q x then (x, scorer q x) else best)
            (m0, s0) = (m, s) ∧
          scorer q m = s ∧ s0 ≤ s ∧ (∀ x ∈ xs, scorer q x ≤ s) ∧
          ((m = m0 ∧ s = s0) ∨
            ∃ l1 l2, xs = l1 ++ m :: l2 ∧ s0 < s ∧ ∀ x ∈ l1, scorer q x < s)
  | [], m0, s0, h => ⟨m0, s0, rfl, h, le_refl _, by simp, Or.inl ⟨rfl, rfl⟩⟩
  | x :: xs, m0, s0, h => by
    simp only [List.foldl_cons]
    by_cases hx : s0 < scorer q x
    · rw [if_pos hx]
      obtain ⟨m, s, hfold, hm, hle, hall, hcase⟩ :=
        foldl_best_spec scorer q xs x (scorer q x) rfl
      refine ⟨m, s, hfold, hm, le_of_lt (lt_of_lt_of_le hx hle), ?_, ?_⟩
      · intro y hy
        rcases List.mem_cons.mp hy with hy | hy
        · exact hy ▸ hle
        · exact hall y hy
      · rcases hcase with ⟨hmx, hsx⟩ | ⟨l1, l2, hsplit, hlt, hpre⟩
        · exact Or.inr ⟨[], xs, by simp [hmx], by omega, by simp⟩
        · refine Or.inr ⟨x :: l1, l2, by rw [hsplit]; rfl, by omega, ?_⟩
          intro y hy
          rcases List.mem_cons.mp hy with hy | hy
          · subst hy; exact hlt
          · exact hpre y hy
    · rw [if_neg hx]
      obtain ⟨m, s, hfold, hm, hle, hall, hcase⟩ :=
        foldl_best_spec scorer q xs m0 s0 h
      refine ⟨m, s, hfold, hm, hle, ?_, ?_⟩
      · intro y hy
        rcases List.mem_cons.mp hy with hy | hy
        · subst hy; omega
        · exact hall y hy
      · rcases hcase with ⟨hmx, hsx⟩ | ⟨l1, l2, hsplit, hlt, hpre⟩
        · exact Or.inl ⟨hmx, hsx⟩
        · refine Or.inr ⟨x :: l1, l2, by rw [hsplit]; rfl, hlt, ?_⟩
          intro y hy
          rcases List.mem_cons.mp hy with hy | hy
          · subst hy; omega
          · exact hpre y hy

/-- On a nonempty list of choices, extractOne returns a choice realising the
maximal score. -/
theorem extractOne_spec (scorer : String → String → Nat) (q : String)
    (cands : List String) (h : cands ≠ []) :
    ∃ m s, extractOne scorer q cands = some (m, s) ∧ m ∈ cands ∧
      scorer q m = s ∧ ∀ x ∈ cands, scorer q x ≤ s := by
  match cands with
  | [] => exact absurd rfl h
  | c :: cs =>
    obtain ⟨m, s, hfold, hm, hle, hall, hcase⟩ :=
      foldl_best_spec scorer q cs c (scorer q c) rfl
    refine ⟨m, s, ?_, ?_, hm, ?_⟩
    · simp only [extractOne, hfold]
    · rcases hcase with ⟨hmx, _⟩ | ⟨l1, l2, hsplit, _, _⟩
      · exact hmx ▸ List.mem_cons_self c cs
      · exact List.mem_cons_of_mem c (by rw [hsplit]; simp)
    · intro x hx
      rcases List.mem_cons.mp hx with hx | hx
      · exact hx ▸ hle
      · exact hall x hx

/-- The choice extractOne returns is the first one attaining the maximal
score: every earlier choice scores strictly less, every choice scores no
more. -/
theorem extractOne_first (scorer : String → String → Nat) (q : String)
    (cands : List String) (m : String) (s : Nat)
    (h : extractOne scorer q cands = some (m, s)) :
    ∃ l1 l2, cands = l1 ++ m :: l2 ∧ scorer q m = s ∧
      (∀ x ∈ l1, scorer q x < s) ∧ ∀ x ∈ cands, scorer q x ≤ s := by
  match cands with
  | [] => simp [extractOne] at h
  | c :: cs =>
    obtain ⟨m', s', hfold, hm, hle, hall, hcase⟩ :=
      foldl_best_spec scorer q cs c (scorer q c) rfl
    have hinj : m' = m ∧ s' = s := by
      simp only [extractOne, hfold] at h
      exact ⟨congrArg Prod.fst (Option.some_inj.mp h),
        congrArg Prod.snd (Option.some_inj.mp h)⟩
    obtain ⟨rfl, rfl⟩ := hinj
    have hallc : ∀ x ∈ c :: cs, scorer q x ≤ s' := by
      intro x hx
      rcases List.mem_cons.mp hx with hx | hx
      · exact hx ▸ hle
      · exact hall x hx
    rcases hcase with ⟨hmx, hsx⟩ | ⟨l1, l2, hsplit, hlt, hpre⟩
    · exact ⟨[], cs, by simp [hmx], hm, by simp, hallc⟩
    · refine ⟨c :: l1, l2, by rw [hsplit]; rfl, hm, ?_, hallc⟩
      intro x hx
      rcases List.mem_cons.mp hx with hx | hx
      · subst hx; omega
      · exact hpre x hx

/-- The lcs of two lists is at most the length of each. -/
theorem lcsF_le : ∀ (f : Nat) (as bs : List Char),
    lcsF f as bs ≤ as.length ∧ lcsF f as bs ≤ bs.length
  | 0, as, bs => by simp [lcsF]
  | f + 1, [], bs => by simp [lcsF]
  | f + 1, a :: as, [] => by simp [lcsF]
  | f + 1, a :: as, b :: bs => by
    have h1 := lcsF_le f as bs
    have h2 := lcsF_le f (a :: as) bs
    have h3 := lcsF_le f as (b :: bs)
    simp only [lcsF, List.length_cons] at h1 h2 h3 ⊢
    by_cases hab : a = b
    · rw [if_pos hab]; omega
    · rw [if_neg hab]
      constructor
      · exact max_le (by omega) (by omega)
      · exact max_le (by omega) (by omega)

/-- With enough fuel, the lcs of a list with itself is its length. -/
theorem lcsF_self : ∀ (f : Nat) (l : List Char), 2 * l.length ≤ f →
    lcsF f l l = l.length
  | 0, [], _ => rfl
  | 0, a :: as, h => by simp only [List.length_cons] at h; omega
  | f + 1, [], _ => rfl
  | f + 1, a :: as, h => by
    have ih := lcsF_self f as (by simp only [List.length_cons] at h; omega)
    simp [lcsF, ih]

/-- The lcs of a list with itself is its length. -/
theorem lcs_self (l : List Char) : lcs l l = l.length :=
  lcsF_self _ _ (by omega)

/-- Rounding n / d half-to-even stays below 100 when n is at most 100 d. -/
theorem roundNat_le_100 (n d : Nat) (hd : 0 < d) (h : n ≤ 100 * d) :
    roundNat n d ≤ 100 := by
  have h2 : n / d ≤ (100 * d) / d := Nat.div_le_div_right h
  have hq : n / d ≤ 100 := by rwa [Nat.mul_div_cancel 100 hd] at h2
  have hdm := Nat.div_add_mod n d
  have hmlt : n % d < d := Nat.mod_lt n hd
  have key : 2 * (n % d) < d ∨ n / d ≤ 99 := by
    by_cases hq99 : n / d ≤ 99
    · exact Or.inr hq99
    · have hq100 : n / d = 100 := by omega
      rw [hq100] at hdm
      exact Or.inl (by omega)
  rcases key with hk | hk
  · simp only [roundNat]
    rw [if_pos hk]
    exact hq
  · simp only [roundNat]
    split_ifs <;> omega

/-- Rounding of an exact multiple: 100 d over d rounds to 100. -/
theorem roundNat_exact (d : Nat) (hd : 0 < d) : roundNat (100 * d) d = 100 := by
  simp only [roundNat, Nat.mul_mod_left, Nat.mul_div_cancel 100 hd, Nat.mul_zero]
  rw [if_pos (by omega)]

/-- Every similarity score is at most 100. -/
theorem fuzz_score_le_100 (a b : String) : fuzz_score a b ≤ 100 := by
  simp only [fuzz_score]
  split_ifs with h
  · omega
  · push_neg at h
    have hl1 : 0 < (full_process a).data.length := List.length_pos.mpr h.1
    have hl2 : 0 < (full_process b).data.length := List.length_pos.mpr h.2
    have hle := lcsF_le ((full_process a).data.length + (full_process b).data.length)
      (full_process a).data (full_process b).data
    exact roundNat_le_100 _ _ (by omega) (by simp only [lcs] at *; omega)

/-- A string whose processed form is nonempty scores 100 against itself. -/
theorem fuzz_score_self (a : String) (h : full_process a ≠ "") :
    fuzz_score a a = 100 := by
  have hne : (full_process a).data ≠ [] := by
    intro hd
    apply h
    cases hfp : full_process a with
    | mk l =>
      rw [hfp] at hd
      simp only at hd
      rw [hd]
  have hl : 0 < (full_process a).data.length := List.length_pos.mpr hne
  simp only [fuzz_score]
  rw [if_neg (by simp [hne])]
  rw [lcs_self]
  have h200 : 200 * (full_process a).data.length =
      100 * ((full_process a).data.length + (full_process a).data.length) := by ring
  rw [h200]
  exact roundNat_exact _ (by omega)

/-- Looking up a label in the resolution map built over a list of distinct
labels returns exactly the resolver output for that label. -/
theorem lookup_build_map (cands : List String) :
    ∀ (ds : List String) (l : String), l ∈ ds →
      List.lookup l (build_resolution_map cands ds) = some (match_sbm cands l)
  | [], l, h => absurd h (List.not_mem_nil l)
  | x :: xs, l, h => by
    simp only [build_resolution_map, List.map_cons, List.lookup_cons]
    by_cases hx : l = x
    · simp [hx]
    · have hb : (l == x) = false := by simpa using hx
      rw [hb]
      exact lookup_build_map cands xs l ((List.mem_cons.mp h).resolve_left hx)

/-! Claim theorems. -/

/-- C1, counterexample.  The candidate universe is capped at 75 entries
(src/app.py line 43), so a column with 76 distinct labels has a distinct
label excluded from the candidate set; moreover candidates are taken raw,
with no normalization, as the second conjunct shows on a label that is not
whitespace-trimmed or case-folded. -/
theorem candidate_cap_counterexample :
    ("75" ∈ unique obs76 ∧ "75" ∉ standard_sbms (unique obs76)) ∧
    (standard_sbms (unique [" X "]) = [" X "] ∧ " X " ≠ full_process " X ") := by
  decide

/-- C1, amended.  The candidate set is the first 75 entries of the distinct
raw observed labels in an unspecified set-iteration order: every candidate
is an observed value, and when the column has at most 75 distinct values
every distinct value is a candidate. -/
theorem candidate_set_within_cap (observed setOrder : List String)
    (h : setOrder.Perm (unique observed)) :
    (∀ x ∈ standard_sbms setOrder, x ∈ observed) ∧
    ((unique observed).length ≤ 75 → ∀ x ∈ unique observed, x ∈ standard_sbms setOrder) := by
  constructor
  · intro x hx
    exact (mem_unique x observed).mp (h.mem_iff.mp (List.mem_of_mem_take hx))
  · intro hlen x hx
    have hlen2 : setOrder.length ≤ 75 := by rw [h.length_eq]; exact hlen
    simp only [standard_sbms]
    rw [List.take_of_length_le hlen2]
    exact h.mem_iff.mpr hx

/-- C1, witness for the amended theorem at a concrete column. -/
theorem candidate_set_within_cap_witness :
    List.Perm ["a", "b"] (unique ["b", "a", "b"]) ∧
    ((∀ x ∈ standard_sbms ["a", "b"], x ∈ ["b", "a", "b"]) ∧
      ((unique ["b", "a", "b"]).length ≤ 75 →
        ∀ x ∈ unique ["b", "a", "b"], x ∈ standard_sbms ["a", "b"])) :=
  ⟨by decide, candidate_set_within_cap ["b", "a", "b"] ["a", "b"] (by decide)⟩

/-- C2.  On a nonempty candidate set the resolver finds a candidate
attaining the maximal similarity score and returns it exactly when that
score is strictly greater than 95; otherwise it returns the input label
unchanged. -/
theorem match_accepts_iff_above_threshold (name : String) (cands : List String)
    (h : cands ≠ []) :
    ∃ m s, extractOne fuzz_score name cands = some (m, s) ∧ m ∈ cands ∧
      fuzz_score name m = s ∧ (∀ c ∈ cands, fuzz_score name c ≤ s) ∧
      match_sbm cands name = some (if 95 < s then m else name) := by
  obtain ⟨m, s, he, hmem, hsc, hall⟩ := extractOne_spec fuzz_score name cands h
  exact ⟨m, s, he, hmem, hsc, hall, by simp [match_sbm, he]⟩

/-- C2, witness at the authoritative-mode scenario of the spec. -/
theorem match_accepts_iff_above_threshold_witness :
    (["Rahul Mehta", "Priya Singh"] ≠ ([] : List String)) ∧
    (∃ m s,
      extractOne fuzz_score "rahul metha" ["Rahul Mehta", "Priya Singh"] = some (m, s) ∧
      m ∈ ["Rahul Mehta", "Priya Singh"] ∧ fuzz_score "rahul metha" m = s ∧
      (∀ c ∈ ["Rahul Mehta", "Priya Singh"], fuzz_score "rahul metha" c ≤ s) ∧
      match_sbm ["Rahul Mehta", "Priya Singh"] "rahul metha" =
        some (if 95 < s then m else "rahul metha")) :=
  ⟨by decide,
    match_accepts_iff_above_threshold "rahul metha" ["Rahul Mehta", "Priya Singh"] (by decide)⟩

/-- C3, counterexample.  The resolver returns raw, unnormalized text: a
label carrying spaces and upper case is returned as is, not lowercased or
trimmed; and the candidate set is built from raw values, keeping two
entries whose normalized forms coincide. -/
theorem normalization_counterexample :
    (match_sbm [" Asha "] " Asha " = some " Asha " ∧ " Asha " ≠ full_process " Asha ") ∧
    (unique ["A", "a"] = ["A", "a"] ∧ full_process "A" = full_process "a") := by
  decide

/-- C3, amended.  Normalization (lowercase, non-alphanumeric to space, trim)
is applied identically to both sides of every comparison, inside the
scoring primitive: the score of two raw strings depends only on their
normalized forms.  The candidate set itself and the resolver output remain
raw text. -/
theorem scoring_normalizes_both_sides (a a' b b' : String)
    (h1 : full_process a = full_process a') (h2 : full_process b = full_process b') :
    fuzz_score a b = fuzz_score a' b' := by
  simp only [fuzz_score, h1, h2]

/-- C3, witness: a padded mixed-case label scores like its normalized form. -/
theorem scoring_normalizes_both_sides_witness :
    full_process " Asha " = full_process "ASHA" ∧ full_process "x" = full_process "x" ∧
    fuzz_score " Asha " "x" = fuzz_score "ASHA" "x" :=
  ⟨by decide, rfl, scoring_normalizes_both_sides " Asha " "ASHA" "x" "x" (by decide) rfl⟩

/-- C4, counterexample.  Two candidates tie at score 100 for the label asha
and one of them is the label itself, yet the resolver returns the other
one, because it keeps the first maximal candidate in list order rather than
applying the exact-match-first or lexicographic tie-break of the spec. -/
theorem tie_break_counterexample :
    fuzz_score "asha" "ASHA" = 100 ∧ fuzz_score "asha" "asha" = 100 ∧
    match_sbm ["ASHA", "asha"] "asha" = some "ASHA" ∧ "ASHA" ≠ "asha" := by
  decide

/-- C4, amended.  Ties are broken positionally: the resolver returns the
first candidate in the list attaining the maximal score -- every earlier
candidate scores strictly less and none scores more -- and that candidate
is the resolved label whenever the score clears the threshold. -/
theorem tie_break_positional (name : String) (cands : List String) (m : String) (s : Nat)
    (h : extractOne fuzz_score name cands = some (m, s)) :
    (∃ l1 l2, cands = l1 ++ m :: l2 ∧ fuzz_score name m = s ∧
      (∀ x ∈ l1, fuzz_score name x < s) ∧ (∀ x ∈ cands, fuzz_score name x ≤ s)) ∧
    (95 < s → match_sbm cands name = some m) :=
  ⟨extractOne_first fuzz_score name cands m s h,
    fun hs => by simp only [match_sbm, h]; rw [if_pos hs]⟩

/-- C4, witness at a concrete tied pair. -/
theorem tie_break_positional_witness :
    extractOne fuzz_score "Ana" ["ANA", "Ana"] = some ("ANA", 100) ∧
    ((∃ l1 l2, ["ANA", "Ana"] = l1 ++ "ANA" :: l2 ∧ fuzz_score "Ana" "ANA" = 100 ∧
      (∀ x ∈ l1, fuzz_score "Ana" x < 100) ∧
      (∀ x ∈ ["ANA", "Ana"], fuzz_score "Ana" x ≤ 100)) ∧
    (95 < 100 → match_sbm ["ANA", "Ana"] "Ana" = some "ANA")) :=
  ⟨by decide, tie_break_positional "Ana" ["ANA", "Ana"] "ANA" 100 (by decide)⟩

/-- C5, counterexample.  On an empty candidate list the resolver does not
pass the label through: extractOne yields None and the 2-tuple unpacking
fails, modelled by the none result. -/
theorem empty_candidates_counterexample :
    match_sbm [] "Asha" = none ∧ match_sbm [] "Asha" ≠ some "Asha" := by
  decide

/-- C5, amended.  Resolving any label against an empty candidate set fails
with a run-time error (unpacking the None returned by extractOne) instead
of passing the label through; within the app this situation arises only
when the column has no rows at all, in which case the resolver is never
invoked. -/
theorem empty_candidates_error (name : String) : match_sbm [] name = none := rfl

/-- C6, counterexample.  Two executions over the same observed column that
enumerate the set of distinct values in different (both legitimate) orders
produce different resolution maps: the case variants BOSE and Bose tie at
score 100 and the positional tie-break then follows the enumeration order,
which Python does not fix across runs. -/
theorem run_determinism_counterexample :
    List.Perm ["BOSE", "Bose"] (unique ["BOSE", "Bose"]) ∧
    List.Perm ["Bose", "BOSE"] (unique ["BOSE", "Bose"]) ∧
    build_resolution_map (standard_sbms ["BOSE", "Bose"]) (unique ["BOSE", "Bose"]) ≠
      build_resolution_map (standard_sbms ["Bose", "BOSE"]) (unique ["BOSE", "Bose"]) := by
  decide

/-- C6, amended.  The reconciliation is a pure function of the candidate
list: two executions over the same observed column agreeing additionally on
the iteration order of the set of distinct values (and hence on the capped
candidate list) produce identical resolution maps; across runs that order
is an unspecified artifact of Python set iteration, so determinism holds
only relative to it. -/
theorem determinism_given_set_order (observed o1 o2 : List String)
    (_h1 : o1.Perm (unique observed)) (_h2 : o2.Perm (unique observed)) (h : o1 = o2) :
    build_resolution_map (standard_sbms o1) (unique observed) =
      build_resolution_map (standard_sbms o2) (unique observed) := by
  rw [h]

/-- C6, witness at a concrete column. -/
theorem determinism_given_set_order_witness :
    List.Perm ["a"] (unique ["a", "a"]) ∧ List.Perm ["a"] (unique ["a", "a"]) ∧
    (["a"] : List String) = ["a"] ∧
    build_resolution_map (standard_sbms ["a"]) (unique ["a", "a"]) =
      build_resolution_map (standard_sbms ["a"]) (unique ["a", "a"]) :=
  ⟨by decide, by decide, rfl,
    determinism_given_set_order ["a", "a"] ["a"] ["a"] (by decide) (by decide) rfl⟩

/-- C7, counterexample.  A label present in the candidate set is not always
resolved to itself: Ram is a candidate, but its case variant RAM also
scores 100 and comes first in the candidate list, so the resolver returns
RAM instead of Ram. -/
theorem identity_match_counterexample :
    "Ram" ∈ ["RAM", "Ram"] ∧ match_sbm ["RAM", "Ram"] "Ram" = some "RAM" ∧
    "RAM" ≠ "Ram" := by
  decide

/-- C7, amended.  A label whose normalized form is nonempty and which is
itself a candidate always yields an accepted match with score 100, but the
returned candidate is the first one in list order attaining that score,
which need not be the label itself. -/
theorem identity_match_amended (name : String) (cands : List String)
    (hmem : name ∈ cands) (hne : full_process name ≠ "") :
    ∃ m, match_sbm cands name = some m ∧ m ∈ cands ∧ fuzz_score name m = 100 := by
  obtain ⟨m, s, he, hm, hsc, hall⟩ :=
    extractOne_spec fuzz_score name cands (List.ne_nil_of_mem hmem)
  have hle : s ≤ 100 := hsc ▸ fuzz_score_le_100 name m
  have hge : 100 ≤ s := by
    have := hall name hmem
    rwa [fuzz_score_self name hne] at this
  have h100 : s = 100 := le_antisymm hle hge
  refine ⟨m, ?_, hm, by rw [hsc, h100]⟩
  simp only [match_sbm, he]
  rw [if_pos (by omega)]

/-- C7, witness at a concrete singleton candidate set. -/
theorem identity_match_amended_witness :
    "Anu" ∈ ["Anu"] ∧ full_process "Anu" ≠ "" ∧
    (∃ m, match_sbm ["Anu"] "Anu" = some m ∧ m ∈ ["Anu"] ∧ fuzz_score "Anu" m = 100) :=
  ⟨by decide, by decide, identity_match_amended "Anu" ["Anu"] (by decide) (by decide)⟩

/-- C8.  Resolving every row individually gives exactly the column obtained
by building the resolution map once over the distinct labels and applying
it to each row by lookup; in particular two rows holding the same observed
label always receive the same resolved label. -/
theorem per_row_eq_memoized (cands rows : List String) :
    apply_column cands rows =
      rows.map (fun r => (List.lookup r (build_resolution_map cands (unique rows))).getD none) ∧
    ∀ i j : Nat, rows[i]? = rows[j]? →
      (apply_column cands rows)[i]? = (apply_column cands rows)[j]? := by
  constructor
  · unfold apply_column
    apply List.map_congr_left
    intro r hr
    rw [lookup_build_map cands (unique rows) r ((mem_unique r rows).mpr hr)]
    rfl
  · intro i j hij
    simp only [apply_column, List.getElem?_map, hij]

/-- C8, witness at a concrete column with a repeated label. -/
theorem per_row_eq_memoized_witness :
    apply_column ["b"] ["a", "a"] =
      List.map (fun r => (List.lookup r (build_resolution_map ["b"] (unique ["a", "a"]))).getD none)
        ["a", "a"] ∧
    ∀ i j : Nat, ["a", "a"][i]? = ["a", "a"][j]? →
      (apply_column ["b"] ["a", "a"])[i]? = (apply_column ["b"] ["a", "a"])[j]? :=
  per_row_eq_memoized ["b"] ["a", "a"]

/-- C9.  Rewriting the User Name column leaves the rest of the dataframe
untouched: the row count is unchanged and the tuple of all other columns of
every row is exactly what it was, so values and null counts of unrelated
columns are preserved. -/
theorem frame_other_columns (β : Type) (cands : List String) (rows : List (String × β)) :
    (update_user_names cands rows).length = rows.length ∧
    (update_user_names cands rows).map Prod.snd = rows.map Prod.snd := by
  constructor
  · simp [update_user_names]
  · simp [update_user_names, List.map_map]

/-- C10.  In self-referential mode every resolved value already occurs in
the observed column: the resolver output is either the unchanged input
label or a candidate, and every candidate is drawn from the distinct
observed labels. -/
theorem resolved_within_observed (observed setOrder : List String) (name r : String)
    (hperm : setOrder.Perm (unique observed)) (hname : name ∈ observed)
    (hres : match_sbm (standard_sbms setOrder) name = some r) :
    r ∈ observed := by
  rcases hcands : standard_sbms setOrder with _ | ⟨c, cs⟩
  · rw [match_sbm, hcands] at hres
    simp [extractOne] at hres
  · obtain ⟨m, s, he, hm, _, _⟩ :=
      extractOne_spec fuzz_score name (c :: cs) (by simp)
    rw [match_sbm, hcands, he] at hres
    simp only [Option.some_inj] at hres
    have hmem : m ∈ observed := by
      have h1 : m ∈ standard_sbms setOrder := by rw [hcands]; exact hm
      have h2 : m ∈ setOrder := List.mem_of_mem_take h1
      exact (mem_unique m observed).mp (hperm.mem_iff.mp h2)
    by_cases h95 : 95 < s
    · rw [if_pos h95] at hres
      exact hres ▸ hmem
    · rw [if_neg h95] at hres
      exact hres ▸ hname

/-- C10, witness at a concrete column. -/
theorem resolved_within_observed_witness :
    List.Perm ["Asha"] (unique ["Asha", "Asha"]) ∧ "Asha" ∈ ["Asha", "Asha"] ∧
    match_sbm (standard_sbms ["Asha"]) "Asha" = some "Asha" ∧ "Asha" ∈ ["Asha", "Asha"] :=
  ⟨by decide, by decide, by decide,
    resolved_within_observed ["Asha", "Asha"] ["Asha"] "Asha" "Asha"
      (by decide) (by decide) (by decide)⟩
